import Mathlib

/-!
Verification of the ultrain-ts-lib asset layer: symbol packing
(`StringToSymbol`, `SymbolNameLength`), the `Asset` class (validation,
arithmetic, comparison, serialization, canonical rendering) and
`PermissionLevel`.  Machine integers (`u64`, `u8`, `u32`) are embedded as
`Nat` with explicit `% 2 ^ 64` (resp. `% 256`) where the source can wrap.
Aborting assertions (`ultrain_assert`) are embedded as `Except` errors.
-/

namespace Supernova

/-- ASCII code of character A (source constant `CHAR_A`). -/
def CHAR_A : Nat := 0x41

/-- ASCII code of character Z (source constant `CHAR_Z`). -/
def CHAR_Z : Nat := 0x5A

/-- max amount of Asset, which is 2^62 - 1 (source constant `MAX_AMOUNT`). -/
def MAX_AMOUNT : Nat := 2 ^ 62 - 1

/-- Modulus of the source's `u64` machine integers. -/
def U64_MOD : Nat := 2 ^ 64

/-- Error taxonomy of the aborting assertions (spec section 7). -/
inductive AssetError where
  | InvalidSymbolLength
  | SymbolMismatch
  | InsufficientAmount
  | DivisionByZero
  deriving Repr, DecidableEq

deriving instance DecidableEq for Except

/-- `<u8>(str.charCodeAt(i) & 0xff)`: the low byte of a character's code. -/
def charCode (c : Char) : Nat := c.toNat &&& 255

/-- The character loop of `StringToSymbol`: for each code at (0-based)
position `i`, codes outside `[CHAR_A, CHAR_Z]` are logged and skipped,
the rest are OR-ed into `result` at byte position `i + 1`. -/
def symbolPack : List Nat → Nat → Nat → Nat
  | [], _, result => result
  | c :: rest, i, result =>
    if c < CHAR_A ∨ CHAR_Z < c then symbolPack rest (i + 1) result
    else symbolPack rest (i + 1) (result ||| (c <<< (8 * (i + 1))))

/-- `StringToSymbol(precision, str)`.  The source truncates `str.length`
to `u8` (`let len: u8 = <u8>str.length`), asserts `len <= 7`, packs the
first `len` characters and ORs in the precision byte. -/
def StringToSymbol (precision : Nat) (str : List Char) : Except AssetError Nat :=
  let len := str.length % 256
  if len ≤ 7 then
    Except.ok (symbolPack ((str.take len).map charCode) 0 0 ||| precision)
  else Except.error AssetError.InvalidSymbolLength

/-- The `while ((symbolName & 0xff) != 0 && length <= 7)` loop of
`SymbolNameLength`; the fuel argument is `8 - length`, so fuel `0` is
exactly the exit `length <= 7` of the loop guard. -/
def snlGo : Nat → Nat → Nat → Nat
  | 0, _, len => len
  | fuel + 1, sym, len =>
    if sym &&& 255 ≠ 0 then snlGo fuel (sym >>> 8) (len + 1) else len

/-- `SymbolNameLength(symbolName)`: skip the precision byte, then count
non-zero bytes until a zero byte or the guard `length <= 7` stops. -/
def SymbolNameLength (symbolName : Nat) : Nat :=
  snlGo 8 (symbolName >>> 8) 0

/-- The inner `do { sym >>= 8; if ((sym & 0xff) != 0) return false; ++i }
while (i < 7)` loop of `isSymbolValid`; the fuel is the number of body
executions, `7 - i` at entry. -/
def zeroTailGo : Nat → Nat → Bool
  | 0, _ => true
  | fuel + 1, sym =>
    let sym' := sym >>> 8
    if sym' &&& 255 ≠ 0 then false else zeroTailGo fuel sym'

/-- The outer `for (i = 0; i < 7; ++i)` loop of `isSymbolValid`; the fuel
argument is `7 - i`.  Each byte must be in `[CHAR_A, CHAR_Z]`; on seeing a
zero next byte the zero-tail loop decides the result (after it, `i >= 7`,
so the outer loop never resumes). -/
def symGo : Nat → Nat → Bool
  | 0, _ => true
  | fuel + 1, sym =>
    let c := sym &&& 255
    if c < CHAR_A ∨ CHAR_Z < c then false
    else
      let sym' := sym >>> 8
      if sym' &&& 255 = 0 then zeroTailGo (fuel + 1) sym'
      else symGo fuel sym'

/-- The `Asset` class: a packed `(amount, symbol)` pair of `u64` fields. -/
structure Asset where
  amount : Nat
  symbol : Nat
  deriving Repr, DecidableEq

/-- `Asset.isSymbolValid()`. -/
def Asset.isSymbolValid (a : Asset) : Bool :=
  symGo 7 (a.symbol >>> 8)

/-- `Asset.gt(lhs)`: `this._symbol == lhs._symbol && this._amount > lhs._amount`. -/
def Asset.gt (self lhs : Asset) : Bool :=
  self.symbol == lhs.symbol && decide (self.amount > lhs.amount)

/-- `Asset.gte(lhs)`. -/
def Asset.gte (self lhs : Asset) : Bool :=
  self.symbol == lhs.symbol && decide (self.amount ≥ lhs.amount)

/-- `Asset.lt(lhs)`. -/
def Asset.lt (self lhs : Asset) : Bool :=
  self.symbol == lhs.symbol && decide (self.amount < lhs.amount)

/-- `Asset.lte(lhs)`. -/
def Asset.lte (self lhs : Asset) : Bool :=
  self.symbol == lhs.symbol && decide (self.amount ≤ lhs.amount)

/-- `Asset.eq(lhs)`. -/
def Asset.eq (self lhs : Asset) : Bool :=
  self.symbol == lhs.symbol && self.amount == lhs.amount

/-- `Asset.clone()`: a fresh asset with the same amount and symbol. -/
def Asset.clone (a : Asset) : Asset :=
  { amount := a.amount, symbol := a.symbol }

/-- `Asset.add(rhs)`: asserts equal symbols, then `this._amount += rhs._amount`
(`u64` wrap-around addition) and returns the mutated self. -/
def Asset.add (self rhs : Asset) : Except AssetError Asset :=
  if rhs.symbol == self.symbol then
    Except.ok { self with amount := (self.amount + rhs.amount) % U64_MOD }
  else Except.error AssetError.SymbolMismatch

/-- `Asset.sub(rhs)`: asserts equal symbols and `this._amount >= rhs._amount`,
then `this._amount -= rhs._amount` and returns the mutated self. -/
def Asset.sub (self rhs : Asset) : Except AssetError Asset :=
  if rhs.symbol == self.symbol then
    if self.amount ≥ rhs.amount then
      Except.ok { self with amount := self.amount - rhs.amount }
    else Except.error AssetError.InsufficientAmount
  else Except.error AssetError.SymbolMismatch

/-- `Asset.multi(rhs)`: `this._amount *= rhs` (`u64` wrap-around product,
no assertion of any kind) and returns the mutated self. -/
def Asset.multi (self : Asset) (rhs : Nat) : Asset :=
  { self with amount := self.amount * rhs % U64_MOD }

/-- `Asset.divide(rhs)`: asserts `rhs != 0`, then `this._amount /= rhs`
(`u64` division, i.e. truncation toward zero). -/
def Asset.divide (self : Asset) (rhs : Nat) : Except AssetError Asset :=
  if rhs ≠ 0 then Except.ok { self with amount := self.amount / rhs }
  else Except.error AssetError.DivisionByZero

/-- `Asset.isAmountWithinRange(amount)`: `0 <= amount && amount <= MAX_AMOUNT`. -/
def Asset.isAmountWithinRange (_ : Asset) (amount : Nat) : Bool :=
  decide (0 ≤ amount) && decide (amount ≤ MAX_AMOUNT)

/-- `Asset.setAmount(newAmount)`: stores the new amount only when
`isAmountWithinRange` accepts it, otherwise does nothing. -/
def Asset.setAmount (a : Asset) (newAmount : Nat) : Asset :=
  if a.isAmountWithinRange newAmount then { a with amount := newAmount } else a

/-- `Asset.isValid()`. -/
def Asset.isValid (a : Asset) : Bool :=
  a.isAmountWithinRange a.amount && a.isSymbolValid

/-- Modelled from the spec: `DataStream.write<u64>` of the SDK is not under
`src/`; per spec section 6 the wire format is fixed-order little-endian with
no padding, so a `u64` is written as its 8 bytes, least significant first. -/
def u64ToBytes (x : Nat) : List Nat :=
  [x % 256, x / 256 % 256, x / 256 ^ 2 % 256, x / 256 ^ 3 % 256,
   x / 256 ^ 4 % 256, x / 256 ^ 5 % 256, x / 256 ^ 6 % 256, x / 256 ^ 7 % 256]

/-- Modelled from the spec: `DataStream.read<u64>` reassembles a `u64` from
8 little-endian bytes. -/
def bytesToU64 (bs : List Nat) : Nat :=
  bs.foldr (fun b acc => b + 256 * acc) 0

/-- `Asset.serialize(ds)`: writes `_amount` then `_symbol`, each as a
fixed-width 64-bit field. -/
def Asset.serialize (a : Asset) : List Nat :=
  u64ToBytes a.amount ++ u64ToBytes a.symbol

/-- `Asset.deserialize(ds)`: reads `_amount` then `_symbol`. -/
def Asset.deserialize (ds : List Nat) : Asset :=
  { amount := bytesToU64 (ds.take 8), symbol := bytesToU64 ((ds.drop 8).take 8) }

/-- The `PermissionLevel` class: `(actor, permission)` pair of `u64` fields. -/
structure PermissionLevel where
  actor : Nat
  permission : Nat
  deriving Repr, DecidableEq

/-- `PermissionLevel.equal(rhs)`. -/
def PermissionLevel.equal (self rhs : PermissionLevel) : Bool :=
  self.actor == rhs.actor && self.permission == rhs.permission

/-- `PermissionLevel.serialize(ds)`: writes `actor` then `permission`. -/
def PermissionLevel.serialize (p : PermissionLevel) : List Nat :=
  u64ToBytes p.actor ++ u64ToBytes p.permission

/-- `PermissionLevel.deserialize(ds)`: reads `actor` then `permission`. -/
def PermissionLevel.deserialize (ds : List Nat) : PermissionLevel :=
  { actor := bytesToU64 (ds.take 8), permission := bytesToU64 ((ds.drop 8).take 8) }

/-- Modelled from the spec: `itoa64` of `internal/number` is not under
`src/`; it renders a `u64` in decimal, `0` rendering as `"0"`. -/
def itoa64 (x : Nat) : List Char := Nat.toDigits 10 x

/-- `Asset.formatAmount(amount, precision)`.  `Math.pow(10, precision)` is
embedded as `10 ^ precision` (exact in double precision for every
precision up to 22, hence for all precisions this development states
facts about). -/
def formatAmount (amount : Nat) (precision : Nat) : List Char :=
  let digit := 10 ^ precision
  let integer := amount / digit
  let amountstr := itoa64 integer
  if precision ≠ 0 then
    let decimal := itoa64 (amount % digit)
    if decimal.length ≠ precision then
      amountstr ++ '.' :: (List.replicate (precision - decimal.length) '0' ++ decimal)
    else amountstr ++ '.' :: decimal
  else amountstr

/-- The symbol-collecting loop of `Asset.toString()`: seven times shift
right by one byte and keep the byte when it is an `A`–`Z` code. -/
def symChars : Nat → Nat → List Char
  | _, 0 => []
  | sym, fuel + 1 =>
    let sym' := sym >>> 8
    let c := sym' &&& 255
    (if CHAR_A ≤ c ∧ c ≤ CHAR_Z then [Char.ofNat c] else []) ++ symChars sym' fuel

/-- `Asset.toString()`: format the amount at the symbol's precision, a
space, then the decoded symbol characters. -/
def Asset.toString (a : Asset) : List Char :=
  let precision := a.symbol &&& 255
  formatAmount a.amount precision ++ ' ' :: symChars a.symbol 7

/-- `SYS = StringToSymbol(4, "UGAS")` (source top-level constant). -/
def SYS : Nat := (StringToSymbol 4 ['U', 'G', 'A', 'S']).toOption.getD 0

/-! ### Helper lemmas -/

/-- OR-ing a value below `2 ^ k` with a value shifted left by `k` is
carry-free addition. -/
theorem lor_add_of_lt {a : Nat} (c k : Nat) (h : a < 2 ^ k) :
    a ||| c <<< k = a + c * 2 ^ k := by
  calc a ||| c <<< k = a ||| c * 2 ^ k := by rw [Nat.shiftLeft_eq]
    _ = c * 2 ^ k ||| a := Nat.lor_comm _ _
    _ = 2 ^ k * c ||| a := by rw [Nat.mul_comm]
    _ = 2 ^ k * c + a := (Nat.mul_add_lt_is_or h c).symm
    _ = a + c * 2 ^ k := by rw [Nat.add_comm, Nat.mul_comm]

/-- Masking with `0xff` is reduction mod 256. -/
theorem and255 (x : Nat) : x &&& 255 = x % 256 := by
  have h := Nat.and_pow_two_sub_one_eq_mod x 8
  norm_num at h
  exact h

/-- Shifting right by one byte is division by 256. -/
theorem shiftRight8 (x : Nat) : x >>> 8 = x / 256 := by
  rw [Nat.shiftRight_eq_div_pow]
  try norm_num

theorem two_pow_8mul (k : Nat) : 2 ^ (8 * k) = 256 ^ k := by
  rw [pow_mul]
  try norm_num

/-- Modelled byte amounts: value of a little-endian byte list. -/
def valBytes : List Nat → Nat
  | [] => 0
  | c :: rest => c + 256 * valBytes rest

theorem valBytes_lt : ∀ {cs : List Nat}, (∀ c ∈ cs, c < 256) →
    valBytes cs < 256 ^ cs.length
  | [], _ => by simp [valBytes]
  | c :: rest, h => by
    have hc : c < 256 := h c (by simp)
    have ih : valBytes rest < 256 ^ rest.length :=
      valBytes_lt (fun d hd => h d (by simp [hd]))
    simp only [valBytes, List.length_cons, pow_succ]
    calc c + 256 * valBytes rest < 256 + 256 * valBytes rest := by omega
      _ = 256 * (valBytes rest + 1) := by ring
      _ ≤ 256 * 256 ^ rest.length := by
          exact Nat.mul_le_mul_left 256 (by omega)
      _ = 256 ^ rest.length * 256 := by ring

/-- The packing loop, on in-range characters, accumulates the byte value
of the remaining codes above the bytes already packed. -/
theorem symbolPack_eq : ∀ (cs : List Nat) (i result : Nat),
    (∀ c ∈ cs, CHAR_A ≤ c ∧ c ≤ CHAR_Z) → result < 256 ^ (i + 1) →
    symbolPack cs i result = result + 256 ^ (i + 1) * valBytes cs
  | [], i, result, _, _ => by simp [symbolPack, valBytes]
  | c :: rest, i, result, h, hres => by
    have hc : CHAR_A ≤ c ∧ c ≤ CHAR_Z := h c (by simp)
    have hguard : ¬(c < CHAR_A ∨ CHAR_Z < c) := by omega
    have hlt : result < 2 ^ (8 * (i + 1)) := by rwa [two_pow_8mul]
    have hlor : result ||| c <<< (8 * (i + 1)) = result + c * 256 ^ (i + 1) := by
      rw [lor_add_of_lt c (8 * (i + 1)) hlt, two_pow_8mul]
    have hbound : result + c * 256 ^ (i + 1) < 256 ^ (i + 2) := by
      have hcz : c ≤ 255 := by
        have : CHAR_Z = 0x5A := rfl
        omega
      calc result + c * 256 ^ (i + 1) < 256 ^ (i + 1) + c * 256 ^ (i + 1) := by omega
        _ = (c + 1) * 256 ^ (i + 1) := by ring
        _ ≤ 256 * 256 ^ (i + 1) := Nat.mul_le_mul_right _ (by omega)
        _ = 256 ^ (i + 2) := by ring
    have ih := symbolPack_eq rest (i + 1) (result + c * 256 ^ (i + 1))
      (fun d hd => h d (by simp [hd])) hbound
    simp only [symbolPack, hguard, if_false, hlor, ih, valBytes]
    try ring

/-- On a short all-uppercase string, `StringToSymbol` succeeds and returns
the precision byte below the byte value of the character codes. -/
theorem StringToSymbol_ok (p : Nat) (s : List Char) (hp : p < 256)
    (hlen : s.length ≤ 7)
    (hs : ∀ c ∈ s, CHAR_A ≤ c.toNat ∧ c.toNat ≤ CHAR_Z) :
    StringToSymbol p s = Except.ok (p + 256 * valBytes (s.map Char.toNat)) := by
  have hmod : s.length % 256 = s.length := Nat.mod_eq_of_lt (by omega)
  have htake : s.take (s.length % 256) = s := by
    rw [hmod]
    exact List.take_length s
  have hmap : s.map charCode = s.map Char.toNat := by
    apply List.map_congr_left
    intro c hc
    have := hs c hc
    have hz : CHAR_Z = 0x5A := rfl
    unfold charCode
    rw [and255]
    omega
  have hcodes : ∀ c ∈ s.map Char.toNat, CHAR_A ≤ c ∧ c ≤ CHAR_Z := by
    intro c hc
    obtain ⟨d, hd, rfl⟩ := List.mem_map.mp hc
    exact hs d hd
  have hpack := symbolPack_eq (s.map Char.toNat) 0 0 hcodes (by norm_num)
  have hlor : 256 * valBytes (s.map Char.toNat) ||| p
      = p + 256 * valBytes (s.map Char.toNat) := by
    calc 256 * valBytes (s.map Char.toNat) ||| p
        = p ||| 256 * valBytes (s.map Char.toNat) := Nat.lor_comm _ _
      _ = p ||| valBytes (s.map Char.toNat) <<< 8 := by
          rw [Nat.shiftLeft_eq, Nat.mul_comm]
          try norm_num
      _ = p + valBytes (s.map Char.toNat) * 2 ^ 8 := lor_add_of_lt _ 8 (by omega)
      _ = p + 256 * valBytes (s.map Char.toNat) := by ring_nf
  unfold StringToSymbol
  norm_num at hpack
  simp only [hmod, List.take_length, hmap, hlen, if_true, ite_true]
  rw [hpack, hlor]

/-- The byte-counting loop of `SymbolNameLength` counts the codes of a
byte list whose entries are non-zero bytes. -/
theorem snlGo_spec : ∀ (cs : List Nat) (fuel len : Nat),
    cs.length ≤ fuel → (∀ c ∈ cs, 0 < c ∧ c < 256) →
    snlGo fuel (valBytes cs) len = len + cs.length
  | [], fuel, len, _, _ => by
    cases fuel with
    | zero => simp [snlGo]
    | succ f => simp [snlGo, valBytes]
  | c :: rest, fuel, len, hfuel, h => by
    have hc : 0 < c ∧ c < 256 := h c (by simp)
    cases fuel with
    | zero => simp at hfuel
    | succ f =>
      have hbyte : valBytes (c :: rest) &&& 255 = c := by
        rw [and255]
        simp only [valBytes]
        omega
      have hshift : valBytes (c :: rest) >>> 8 = valBytes rest := by
        rw [shiftRight8]
        simp only [valBytes]
        omega
      have ih := snlGo_spec rest f (len + 1) (by simpa using hfuel)
        (fun d hd => h d (by simp [hd]))
      simp only [snlGo, hbyte, hshift, ih]
      have : c ≠ 0 := by omega
      simp only [this, if_pos, ne_eq, not_false_eq_true, if_true]
      simp [List.length_cons]
      omega

/-- The zero-tail loop accepts the all-zero value. -/
theorem zeroTailGo_zero : ∀ fuel, zeroTailGo fuel 0 = true
  | 0 => rfl
  | fuel + 1 => by
    simp only [zeroTailGo, Nat.zero_shiftRight, Nat.zero_and]
    simpa using zeroTailGo_zero fuel

/-- The validity loop accepts the byte value of a non-empty list of
uppercase codes that fits in the remaining fuel. -/
theorem symGo_spec : ∀ (cs : List Nat) (fuel : Nat),
    cs ≠ [] → cs.length ≤ fuel →
    (∀ c ∈ cs, CHAR_A ≤ c ∧ c ≤ CHAR_Z) →
    symGo fuel (valBytes cs) = true
  | [], _, hne, _, _ => absurd rfl hne
  | c :: rest, fuel, _, hfuel, h => by
    have hc : CHAR_A ≤ c ∧ c ≤ CHAR_Z := h c (by simp)
    have hz : CHAR_Z = 0x5A := rfl
    cases fuel with
    | zero => simp at hfuel
    | succ f =>
      have hbyte : valBytes (c :: rest) &&& 255 = c := by
        rw [and255]
        simp only [valBytes]
        omega
      have hshift : valBytes (c :: rest) >>> 8 = valBytes rest := by
        rw [shiftRight8]
        simp only [valBytes]
        omega
      have hguard : ¬(c < CHAR_A ∨ CHAR_Z < c) := by omega
      cases rest with
      | nil =>
        have : valBytes ([] : List Nat) = 0 := rfl
        simp only [symGo, hbyte, hguard, if_false, hshift, this,
          Nat.zero_and, if_pos]
        simpa using zeroTailGo_zero (f + 1)
      | cons d rest' =>
        have hd : CHAR_A ≤ d ∧ d ≤ CHAR_Z := h d (by simp)
        have hdbyte : valBytes (d :: rest') &&& 255 = d := by
          rw [and255]
          simp only [valBytes]
          have : d < 256 := by omega
          omega
        have ha : CHAR_A = 0x41 := rfl
        have hdne : ¬(valBytes (d :: rest') &&& 255 = 0) := by
          rw [hdbyte]
          omega
        have ih := symGo_spec (d :: rest') f (by simp) (by simpa using hfuel)
          (fun e he => h e (by simp at he ⊢; tauto))
        simp only [symGo, hbyte, hguard, if_false, hshift, hdne, ih]

/-- Reassembling the 8 little-endian bytes of a `u64` value recovers it. -/
theorem bytesToU64_u64ToBytes (x : Nat) (h : x < U64_MOD) :
    bytesToU64 (u64ToBytes x) = x := by
  unfold U64_MOD at h
  simp only [u64ToBytes, bytesToU64, List.foldr]
  omega

/-! ### Claim theorems -/

/-- Claim C1: the spec requires `multi` to fail with `Overflow` whenever
the exact product exceeds `2 ^ 62 - 1`, so that the amount invariant is
preserved.  The code has no such guard: `multi` is total (its result type
carries no error case), and at amount `2 ^ 61` with factor `4` it returns
normally with an amount of `2 ^ 63`, violating the claimed invariant. -/
theorem multi_unchecked_overflow :
    MAX_AMOUNT < 2 ^ 61 * 4 ∧
    Asset.multi ⟨2 ^ 61, SYS⟩ 4 = ⟨2 ^ 63, SYS⟩ ∧
    ¬(Asset.multi ⟨2 ^ 61, SYS⟩ 4).amount ≤ MAX_AMOUNT := by
  refine ⟨by decide, ?_, by decide⟩
  decide

/-- Claim C4: `deserialize` is a left inverse of `serialize` for every
asset and permission level whose fields are `u64` values; a serialized
`PermissionLevel` is a fixed 16-byte record. -/
theorem serialize_roundtrip :
    (∀ a : Asset, a.amount < U64_MOD → a.symbol < U64_MOD →
      Asset.deserialize (Asset.serialize a) = a) ∧
    (∀ p : PermissionLevel, p.actor < U64_MOD → p.permission < U64_MOD →
      PermissionLevel.deserialize (PermissionLevel.serialize p) = p) ∧
    (∀ p : PermissionLevel, (PermissionLevel.serialize p).length = 16) := by
  refine ⟨?_, ?_, ?_⟩
  · rintro ⟨am, sy⟩ h1 h2
    have hdefeq : Asset.deserialize (Asset.serialize ⟨am, sy⟩)
        = ⟨bytesToU64 (u64ToBytes am), bytesToU64 (u64ToBytes sy)⟩ := rfl
    rw [hdefeq, bytesToU64_u64ToBytes am h1, bytesToU64_u64ToBytes sy h2]
  · rintro ⟨ac, pe⟩ h1 h2
    have hdefeq : PermissionLevel.deserialize (PermissionLevel.serialize ⟨ac, pe⟩)
        = ⟨bytesToU64 (u64ToBytes ac), bytesToU64 (u64ToBytes pe)⟩ := rfl
    rw [hdefeq, bytesToU64_u64ToBytes ac h1, bytesToU64_u64ToBytes pe h2]
  · rintro ⟨ac, pe⟩
    rfl

/-- Witness for C4 at concrete values. -/
theorem serialize_roundtrip_witness :
    Asset.deserialize (Asset.serialize ⟨5, 357577479428⟩) = ⟨5, 357577479428⟩ ∧
    PermissionLevel.deserialize (PermissionLevel.serialize ⟨123456789, 987654321⟩)
      = ⟨123456789, 987654321⟩ :=
  ⟨serialize_roundtrip.1 ⟨5, 357577479428⟩ (by decide) (by decide),
   serialize_roundtrip.2.1 ⟨123456789, 987654321⟩ (by decide) (by decide)⟩

/-- Claim C5: for matching symbols and a sum within the amount range,
`a.clone().add(b).sub(b)` succeeds and its result equals `a` under `eq`. -/
theorem add_sub_inverse (a b : Asset) (hsym : a.symbol = b.symbol)
    (hsum : a.amount + b.amount ≤ 2 ^ 62 - 1) :
    ((a.clone.add b).bind (fun x => x.sub b)).map (fun r => r.eq a)
      = Except.ok true := by
  have hmod : (a.amount + b.amount) % U64_MOD = a.amount + b.amount :=
    Nat.mod_eq_of_lt (by unfold U64_MOD; omega)
  simp only [Asset.clone, Asset.add, Asset.sub, Asset.eq, hsym,
    beq_self_eq_true, if_pos, if_true, hmod, Except.bind, Except.map]
  have hge : a.amount + b.amount ≥ b.amount := Nat.le_add_left _ _
  simp only [hge, if_pos, if_true, Nat.add_sub_cancel, beq_self_eq_true,
    Bool.and_self]

/-- Witness for C5 at concrete values. -/
theorem add_sub_inverse_witness :
    ((Asset.clone ⟨5, 357577479428⟩ |>.add ⟨7, 357577479428⟩).bind
        (fun x => x.sub ⟨7, 357577479428⟩)).map (fun r => r.eq ⟨5, 357577479428⟩)
      = Except.ok true :=
  add_sub_inverse ⟨5, 357577479428⟩ ⟨7, 357577479428⟩ rfl (by decide)

/-- Claim C6: `add` and `sub` fail with `SymbolMismatch` exactly on a
symbol mismatch, `sub` fails with `InsufficientAmount` exactly when the
symbols match and the amount is insufficient, and on success they return
the mutated self with the sum (resp. difference) as amount.  The amount
hypotheses are the data-model invariant `0 ≤ amount ≤ 2 ^ 62 - 1`. -/
theorem add_sub_conditions (a b : Asset)
    (ha : a.amount ≤ 2 ^ 62 - 1) (hb : b.amount ≤ 2 ^ 62 - 1) :
    (a.add b = Except.error AssetError.SymbolMismatch ↔ b.symbol ≠ a.symbol) ∧
    (a.sub b = Except.error AssetError.SymbolMismatch ↔ b.symbol ≠ a.symbol) ∧
    (a.sub b = Except.error AssetError.InsufficientAmount ↔
      b.symbol = a.symbol ∧ a.amount < b.amount) ∧
    (b.symbol = a.symbol →
      a.add b = Except.ok ⟨a.amount + b.amount, a.symbol⟩) ∧
    (b.symbol = a.symbol → b.amount ≤ a.amount →
      a.sub b = Except.ok ⟨a.amount - b.amount, a.symbol⟩) := by
  have hmod : (a.amount + b.amount) % U64_MOD = a.amount + b.amount :=
    Nat.mod_eq_of_lt (by unfold U64_MOD; omega)
  by_cases hsym : b.symbol = a.symbol
  · by_cases hamt : b.amount ≤ a.amount
    · simp [Asset.add, Asset.sub, hsym, hmod, hamt, Nat.not_lt.mpr hamt]
    · simp [Asset.add, Asset.sub, hsym, hmod, hamt, Nat.not_le.mp hamt,
        Nat.lt_of_not_le hamt]
  · simp [Asset.add, Asset.sub, hsym]

/-- Witness for C6 at concrete values. -/
theorem add_sub_conditions_witness :
    Asset.add ⟨5, 357577479428⟩ ⟨3, 357577479428⟩ = Except.ok ⟨8, 357577479428⟩ ∧
    Asset.sub ⟨5, 357577479428⟩ ⟨3, 357577479428⟩ = Except.ok ⟨2, 357577479428⟩ :=
  ⟨(add_sub_conditions ⟨5, 357577479428⟩ ⟨3, 357577479428⟩
      (by decide) (by decide)).2.2.2.1 rfl,
   (add_sub_conditions ⟨5, 357577479428⟩ ⟨3, 357577479428⟩
      (by decide) (by decide)).2.2.2.2 rfl (by decide)⟩

/-- Claim C7: `divide(0)` fails with `DivisionByZero`; for a non-zero
factor `divide` succeeds with the truncated integer quotient; an asset of
amount 7 divided by 2 has amount 3. -/
theorem divide_spec (a : Asset) (f : Nat) :
    a.divide 0 = Except.error AssetError.DivisionByZero ∧
    (f ≠ 0 → a.divide f = Except.ok ⟨a.amount / f, a.symbol⟩) ∧
    (Asset.divide ⟨7, SYS⟩ 2).map Asset.amount = Except.ok 3 := by
  refine ⟨by simp [Asset.divide], ?_, by decide⟩
  intro hf
  cases a with
  | mk am sy => simp [Asset.divide, hf]

/-- Witness for C7 at concrete values. -/
theorem divide_spec_witness :
    Asset.divide ⟨9, 357577479428⟩ 4 = Except.ok ⟨2, 357577479428⟩ :=
  (divide_spec ⟨9, 357577479428⟩ 4).2.1 (by decide)

/-- Claim C8: `setAmount` silently ignores out-of-range input (leaving
amount and symbol unchanged, with no error path in its type) and stores
any in-range input. -/
theorem setAmount_spec (a : Asset) (n : Nat) :
    (2 ^ 62 - 1 < n → a.setAmount n = a) ∧
    (n ≤ 2 ^ 62 - 1 → a.setAmount n = ⟨n, a.symbol⟩) := by
  cases a with
  | mk am sy =>
    constructor <;> intro h <;>
      simp only [Asset.setAmount, Asset.isAmountWithinRange, MAX_AMOUNT,
        Bool.and_eq_true, decide_eq_true_eq] <;>
      split <;> simp_all <;> omega

/-- Witness for C8 at concrete values. -/
theorem setAmount_spec_witness :
    Asset.setAmount ⟨1, 7⟩ (2 ^ 62) = ⟨1, 7⟩ ∧
    Asset.setAmount ⟨1, 7⟩ 5 = ⟨5, 7⟩ :=
  ⟨(setAmount_spec ⟨1, 7⟩ (2 ^ 62)).1 (by decide),
   (setAmount_spec ⟨1, 7⟩ 5).2 (by decide)⟩

/-- Counterexample to claim C2 as stated: the claim includes the empty
symbol string, but the symbol encoded from precision 0 and the empty
string fails `isSymbolValid` (its first byte is 0, not an `A`–`Z` code). -/
theorem empty_symbol_invalid :
    (0 : Nat) ≤ 18 ∧ ([] : List Char).length ≤ 7 ∧
    StringToSymbol 0 [] = Except.ok 0 ∧
    SymbolNameLength 0 = 0 ∧
    Asset.isSymbolValid ⟨0, 0⟩ = false := by
  refine ⟨by decide, by decide, by decide, by decide, by decide⟩

/-- Claim C2 as amended: for precision at most 18 and a symbol string of
length at most 7 made of `A`–`Z` characters, encoding succeeds, the
decoded name length equals the string length, and — provided the string
is non-empty — any asset carrying the encoded symbol passes
`isSymbolValid`. -/
theorem symbol_encode_spec (p : Nat) (s : List Char) (amt : Nat)
    (hp : p ≤ 18) (hlen : s.length ≤ 7)
    (hs : ∀ c ∈ s, CHAR_A ≤ c.toNat ∧ c.toNat ≤ CHAR_Z) :
    ∃ v, StringToSymbol p s = Except.ok v ∧
      SymbolNameLength v = s.length ∧
      (s ≠ [] → (Asset.mk amt v).isSymbolValid = true) := by
  have hz : CHAR_Z = 0x5A := rfl
  have ha : CHAR_A = 0x41 := rfl
  have hok := StringToSymbol_ok p s (by omega) hlen hs
  refine ⟨p + 256 * valBytes (s.map Char.toNat), hok, ?_, ?_⟩
  · have hstrip : (p + 256 * valBytes (s.map Char.toNat)) >>> 8
        = valBytes (s.map Char.toNat) := by
      rw [shiftRight8]
      omega
    have hcodes : ∀ c ∈ s.map Char.toNat, 0 < c ∧ c < 256 := by
      intro c hc
      obtain ⟨d, hd, rfl⟩ := List.mem_map.mp hc
      have := hs d hd
      omega
    unfold SymbolNameLength
    rw [hstrip, snlGo_spec (s.map Char.toNat) 8 0 (by simp; omega) hcodes]
    simp
  · intro hne
    have hstrip : (p + 256 * valBytes (s.map Char.toNat)) >>> 8
        = valBytes (s.map Char.toNat) := by
      rw [shiftRight8]
      omega
    have hcodes : ∀ c ∈ s.map Char.toNat, CHAR_A ≤ c ∧ c ≤ CHAR_Z := by
      intro c hc
      obtain ⟨d, hd, rfl⟩ := List.mem_map.mp hc
      exact hs d hd
    unfold Asset.isSymbolValid
    simp only at hstrip ⊢
    rw [hstrip]
    exact symGo_spec (s.map Char.toNat) 7 (by simpa using hne)
      (by simpa using hlen) hcodes

/-- Witness for the amended C2 at `p = 4`, `s = "UGAS"`. -/
theorem symbol_encode_spec_witness :
    ∃ v, StringToSymbol 4 ['U', 'G', 'A', 'S'] = Except.ok v ∧
      SymbolNameLength v = (['U', 'G', 'A', 'S'] : List Char).length ∧
      ((['U', 'G', 'A', 'S'] : List Char) ≠ [] →
        (Asset.mk 0 v).isSymbolValid = true) :=
  symbol_encode_spec 4 ['U', 'G', 'A', 'S'] 0 (by decide) (by decide) (by decide)

/-- Counterexample to claim C3 as stated: on assets with different
symbols the comparison operators do not abort; each is a total boolean
function and returns `false` (here at amounts 5 and 5, symbols 1 and 2). -/
theorem comparisons_no_mismatch_failure :
    (1 : Nat) ≠ 2 ∧
    Asset.gt ⟨5, 1⟩ ⟨5, 2⟩ = false ∧
    Asset.gte ⟨5, 1⟩ ⟨5, 2⟩ = false ∧
    Asset.lt ⟨5, 1⟩ ⟨5, 2⟩ = false ∧
    Asset.lte ⟨5, 1⟩ ⟨5, 2⟩ = false := by
  refine ⟨by decide, by decide, by decide, by decide, by decide⟩

/-- Claim C3 as amended: on a symbol mismatch `add` and `sub` fail with
`SymbolMismatch`, while the comparisons `gt`, `gte`, `lt`, `lte` (and
`eq`) do not fail — they return `false`. -/
theorem mismatch_operations (a b : Asset) (h : b.symbol ≠ a.symbol) :
    a.add b = Except.error AssetError.SymbolMismatch ∧
    a.sub b = Except.error AssetError.SymbolMismatch ∧
    a.gt b = false ∧ a.gte b = false ∧ a.lt b = false ∧ a.lte b = false ∧
    a.eq b = false := by
  have h' : a.symbol ≠ b.symbol := Ne.symm h
  simp [Asset.add, Asset.sub, Asset.gt, Asset.gte, Asset.lt, Asset.lte,
    Asset.eq, h, h']

/-- Witness for the amended C3 at concrete assets. -/
theorem mismatch_operations_witness :
    Asset.add ⟨5, 1⟩ ⟨5, 2⟩ = Except.error AssetError.SymbolMismatch ∧
    Asset.sub ⟨5, 1⟩ ⟨5, 2⟩ = Except.error AssetError.SymbolMismatch ∧
    Asset.gt ⟨5, 1⟩ ⟨5, 2⟩ = false ∧ Asset.gte ⟨5, 1⟩ ⟨5, 2⟩ = false ∧
    Asset.lt ⟨5, 1⟩ ⟨5, 2⟩ = false ∧ Asset.lte ⟨5, 1⟩ ⟨5, 2⟩ = false ∧
    Asset.eq ⟨5, 1⟩ ⟨5, 2⟩ = false :=
  mismatch_operations ⟨5, 1⟩ ⟨5, 2⟩ (by decide)

/-- Claim C10: the source truncates the string length to `u8` before the
length assertion, so any string whose length is at most 7 mod 256 encodes
without the length error, only the first `length % 256` characters are
examined, and a 256-character string encodes to the bare precision
byte. -/
theorem length_truncation (p : Nat) (s : List Char) (h : s.length % 256 ≤ 7) :
    (∃ v, StringToSymbol p s = Except.ok v) ∧
    StringToSymbol p s = StringToSymbol p (s.take (s.length % 256)) ∧
    (s.length = 256 → StringToSymbol p s = Except.ok p) := by
  have hmodle : s.length % 256 ≤ s.length := Nat.mod_le _ _
  have htlen : (s.take (s.length % 256)).length = s.length % 256 := by
    simp [List.length_take]
    omega
  refine ⟨?_, ?_, ?_⟩
  · rcases hval : StringToSymbol p s with e | v
    · unfold StringToSymbol at hval
      simp [h] at hval
    · exact ⟨v, rfl⟩
  · have htmod : (s.take (s.length % 256)).length % 256 = s.length % 256 := by
      rw [htlen]
      exact Nat.mod_eq_of_lt (by omega)
    unfold StringToSymbol
    simp only [htmod, htlen]
    simp [h, List.take_take, List.map_take, Nat.min_self]
  · intro h256
    unfold StringToSymbol
    simp [h256, symbolPack, Nat.zero_or]

/-- `Nat.digitChar` never yields a decimal point on an actual digit. -/
theorem digitChar_ne_dot (n : Nat) (h : n < 10) : Nat.digitChar n ≠ '.' := by
  interval_cases n <;> decide

/-- The decimal-rendering loop never emits a decimal point beyond what the
accumulator already holds. -/
theorem toDigitsCore_ne_dot : ∀ (fuel n : Nat) (acc : List Char),
    (∀ c ∈ acc, c ≠ '.') → ∀ c ∈ Nat.toDigitsCore 10 fuel n acc, c ≠ '.'
  | 0, _, acc, hacc => by simpa [Nat.toDigitsCore] using hacc
  | fuel + 1, n, acc, hacc => by
    have hd : ∀ c ∈ Nat.digitChar (n % 10) :: acc, c ≠ '.' := by
      intro c hc
      rcases List.mem_cons.mp hc with rfl | hc'
      · exact digitChar_ne_dot _ (Nat.mod_lt _ (by omega))
      · exact hacc c hc'
    intro c hc
    have hstep : Nat.toDigitsCore 10 (fuel + 1) n acc
        = if n / 10 = 0 then Nat.digitChar (n % 10) :: acc
          else Nat.toDigitsCore 10 fuel (n / 10) (Nat.digitChar (n % 10) :: acc) := rfl
    rw [hstep] at hc
    by_cases h0 : n / 10 = 0
    · rw [if_pos h0] at hc
      exact hd c hc
    · rw [if_neg h0] at hc
      exact toDigitsCore_ne_dot fuel (n / 10) _ hd c hc

/-- Decimal rendering contains no decimal point. -/
theorem itoa64_ne_dot (n : Nat) : '.' ∉ itoa64 n := by
  intro hmem
  unfold itoa64 Nat.toDigits at hmem
  exact toDigitsCore_ne_dot (n + 1) n [] (by simp) '.' hmem rfl

/-- A character built from an uppercase code is not a decimal point. -/
theorem ofNat_upper_ne_dot (c : Nat) (h1 : CHAR_A ≤ c) (h2 : c ≤ CHAR_Z) :
    Char.ofNat c ≠ '.' := by
  have ha : CHAR_A = 65 := rfl
  have hz : CHAR_Z = 90 := rfl
  rw [ha] at h1
  rw [hz] at h2
  interval_cases c <;> decide

/-- The symbol-character loop of `toString` never emits a decimal point. -/
theorem symChars_ne_dot : ∀ (sym fuel : Nat), '.' ∉ symChars sym fuel
  | _, 0 => by simp [symChars]
  | sym, fuel + 1 => by
    intro hmem
    simp only [symChars] at hmem
    rcases List.mem_append.mp hmem with h1 | h2
    · by_cases hc : CHAR_A ≤ sym >>> 8 &&& 255 ∧ sym >>> 8 &&& 255 ≤ CHAR_Z
      · rw [if_pos hc] at h1
        simp only [List.mem_singleton] at h1
        exact ofNat_upper_ne_dot _ hc.1 hc.2 h1.symm
      · rw [if_neg hc] at h1
        simp at h1
    · exact symChars_ne_dot (sym >>> 8) fuel h2

/-- With precision 0, `formatAmount` is bare decimal rendering. -/
theorem formatAmount_zero (amt : Nat) : formatAmount amt 0 = itoa64 amt := by
  simp [formatAmount]

/-- Claim C9: `toString` renders `"1.0000 UGAS"` for amount 10000 at
symbol `StringToSymbol(4, "UGAS")`, renders `"0 XRT"` for amount 0 at
symbol `StringToSymbol(0, "XRT")`, and omits the decimal point entirely
whenever the symbol's precision byte is 0. -/
theorem toString_rendering :
    Asset.toString ⟨10000, SYS⟩ = "1.0000 UGAS".toList ∧
    Asset.toString ⟨0, (StringToSymbol 0 ['X', 'R', 'T']).toOption.getD 0⟩
      = "0 XRT".toList ∧
    (∀ amt sym : Nat, sym &&& 255 = 0 → '.' ∉ Asset.toString ⟨amt, sym⟩) := by
  refine ⟨by decide, by decide, ?_⟩
  intro amt sym hprec
  unfold Asset.toString
  simp only [hprec]
  rw [formatAmount_zero]
  intro hmem
  rcases List.mem_append.mp hmem with h1 | h2
  · exact itoa64_ne_dot amt h1
  · rcases List.mem_cons.mp h2 with heq | h3
    · exact absurd heq (by decide)
    · exact symChars_ne_dot sym 7 h3

/-- Witness for the precision-0 conjunct of C9. -/
theorem toString_rendering_witness :
    '.' ∉ Asset.toString ⟨12345, 0⟩ :=
  toString_rendering.2.2 12345 0 (by decide)

set_option maxRecDepth 4000 in
/-- Witness for C10 at a 256-character string. -/
theorem length_truncation_witness :
    (List.replicate 256 'A').length % 256 ≤ 7 ∧
    StringToSymbol 3 (List.replicate 256 'A') = Except.ok 3 :=
  ⟨by decide,
   (length_truncation 3 (List.replicate 256 'A') (by decide)).2.2 (by decide)⟩

end Supernova
